import Mathlib

/-!
Shallow embedding of the SAT solver in `src/sat.py` (class `SatSolver`):
the literal/clause evaluation primitives, the exhaustive brute-force
enumerator `sat_bruteforce`, and the pruning backtracking search
`sat_backtracking` with its recursive `dfs` closure.

A Python `Dict[int, bool]` partial assignment is embedded as an association
list in insertion order; the mutation of the shared dictionary inside `dfs`
becomes explicit state passing (the assignment and the `solved_model`
variable are taken and returned).
-/

/-- A partial assignment: the Python `Dict[int, bool]`, kept as an
association list in insertion order (lookup returns the first binding of a
key; the update operations keep keys unique, as a Python dict does). -/
abbrev Assignment := List (Nat × Bool)

/-- Dictionary lookup `A.get(v, None)` / membership `v in A`: the value of
the first (and, by the update discipline, only) binding of `v`. -/
def Aget : Assignment → Nat → Option Bool
  | [], _ => none
  | p :: A, v => if p.1 = v then some p.2 else Aget A v

/-- Dictionary update `A[v] = b`: overwriting an existing key keeps its
position, a new key is appended at the end, as in a Python dict. -/
def Aset (A : Assignment) (v : Nat) (b : Bool) : Assignment :=
  if A.any (fun p => p.1 == v) then A.map (fun p => if p.1 == v then (v, b) else p)
  else A ++ [(v, b)]

/-- Dictionary deletion `del A[v]`. -/
def Adel (A : Assignment) (v : Nat) : Assignment :=
  A.filter (fun p => !(p.1 == v))

/-- `SatSolver.literal_true(lit, A)`: the literal's variable is assigned and
the assigned value matches the literal's polarity. -/
def literal_true (lit : Int) (A : Assignment) : Bool :=
  match Aget A lit.natAbs with
  | none => false
  | some val => (decide (lit > 0) && val) || (decide (lit < 0) && !val)

/-- `SatSolver.clause_satisfied(clause, A)`: some literal is true under `A`. -/
def clause_satisfied (clause : List Int) (A : Assignment) : Bool :=
  clause.any (fun lit => literal_true lit A)

/-- The scanning loop of `SatSolver.clause_impossible`, with the
`has_unassigned` flag as an accumulator. -/
def clause_impossible_loop (A : Assignment) : List Int → Bool → Bool
  | [], has_unassigned => !has_unassigned
  | lit :: rest, has_unassigned =>
    if (Aget A lit.natAbs).isSome = false then clause_impossible_loop A rest true
    else if literal_true lit A then false
    else clause_impossible_loop A rest has_unassigned

/-- `SatSolver.clause_impossible(clause, A)`: no assigned literal is true and
no literal's variable is unassigned. -/
def clause_impossible (clause : List Int) (A : Assignment) : Bool :=
  clause_impossible_loop A clause false

/-- `itertools.product([False, True], repeat=n)`: all boolean tuples of
length `n`, in order — first coordinate slowest-varying, `False` before
`True`. -/
def allBits : Nat → List (List Bool)
  | 0 => [[]]
  | n + 1 => ([false, true]).flatMap (fun b => (allBits n).map (fun bs => b :: bs))

/-- The dict comprehension `{i+1: bits[i] for i in range(n_vars)}`, built
from key `k` upwards. -/
def bitsToA_from (k : Nat) : List Bool → Assignment
  | [] => []
  | b :: bs => (k, b) :: bitsToA_from (k + 1) bs

/-- The assignment dict built by `sat_bruteforce` for a bit tuple. -/
def bitsToA (bits : List Bool) : Assignment := bitsToA_from 1 bits

/-- `SatSolver.sat_bruteforce(n_vars, clauses)`: return the first total
assignment, in `itertools.product` order, satisfying every clause, else
`(False, {})`. -/
def sat_bruteforce (n_vars : Nat) (clauses : List (List Int)) : Bool × Assignment :=
  match (allBits n_vars).find? (fun bits => clauses.all (fun c => clause_satisfied c (bitsToA bits))) with
  | some bits => (true, bitsToA bits)
  | none => (false, [])

/-- The clause-scanning loop of `tri_state` inside `sat_backtracking`, with
the `all_true` flag as an accumulator. -/
def tri_state_loop (A : Assignment) : List (List Int) → Bool → String
  | [], all_true => if all_true then "yes" else "maybe"
  | c :: rest, all_true =>
    if clause_satisfied c A then tri_state_loop A rest all_true
    else if clause_impossible c A then "no"
    else tri_state_loop A rest false

/-- `tri_state()` inside `sat_backtracking`: "yes" when all clauses are
satisfied, "no" when some clause is already impossible, "maybe" otherwise. -/
def tri_state (clauses : List (List Int)) (A : Assignment) : String :=
  tri_state_loop A clauses true

/-- `pick_unassigned()` inside `sat_backtracking`: the first variable of
`1..n_vars` not in `A`, or `0` when all are assigned. -/
def pick_unassigned (n_vars : Nat) (A : Assignment) : Nat :=
  match (List.range' 1 n_vars).find? (fun v => !(Aget A v).isSome) with
  | some v => v
  | none => 0

/-- The recursive `dfs()` closure of `sat_backtracking`, with the mutated
enclosing state passed explicitly: it takes and returns the partial
assignment `A` and the `solved_model` (`sm`).  Recursion is driven by a fuel
argument; `sat_backtracking` supplies `n_vars + 1` fuel, which is never
exhausted, since every nested call assigns one more variable of `1..n_vars`
and once all are assigned `pick_unassigned` returns `0` without recursing. -/
def dfs (clauses : List (List Int)) (n_vars : Nat) :
    Nat → Assignment → Assignment → Bool × Assignment × Assignment
  | 0, A, sm => (false, A, sm)
  | fuel + 1, A, sm =>
    let state := tri_state clauses A
    if state = "yes" then (true, A, A)
    else if state = "no" then (false, A, sm)
    else
      let v := pick_unassigned n_vars A
      if v = 0 then (false, A, sm)
      else
        let r1 := dfs clauses n_vars fuel (Aset A v true) sm
        if r1.1 then r1
        else
          let r2 := dfs clauses n_vars fuel (Aset r1.2.1 v false) r1.2.2
          if r2.1 then r2
          else (false, Adel r2.2.1 v, r2.2.2)

/-- `SatSolver.sat_backtracking(n_vars, clauses)`: run `dfs` on the empty
assignment; on success return the captured `solved_model`, else `(False, {})`. -/
def sat_backtracking (n_vars : Nat) (clauses : List (List Int)) : Bool × Assignment :=
  let r := dfs clauses n_vars (n_vars + 1) [] []
  if r.1 then (true, r.2.2) else (false, [])

/-- `A'` extends the partial assignment `A`: it agrees with every binding of
`A` (and may assign more variables). -/
def Extends (A A' : Assignment) : Prop :=
  ∀ v b, Aget A v = some b → Aget A' v = some b

/-- `A` is a total assignment over the variables `1..n`. -/
def TotalOver (n : Nat) (A : Assignment) : Prop :=
  ∀ v, 1 ≤ v → v ≤ n → (Aget A v).isSome = true

/-- Every clause of the formula is satisfied under `A`. -/
def SatAll (clauses : List (List Int)) (A : Assignment) : Prop :=
  ∀ c ∈ clauses, clause_satisfied c A = true

/-- The caller invariant of the spec: every literal is non-zero with absolute
value in `[1, n]`. -/
def ClausesWF (n : Nat) (clauses : List (List Int)) : Prop :=
  ∀ c ∈ clauses, ∀ lit ∈ c, lit ≠ 0 ∧ 1 ≤ lit.natAbs ∧ lit.natAbs ≤ n

/-- The spec's counter description of the brute-force enumeration order: the
`k`-th assignment (0-based) has variable `i+1` reading digit `i` of `k` in
big-endian binary, so variable 1 is the slowest-varying digit and variable
`n` the fastest, `false` (0) before `true` (1). -/
def counterBits (n k : Nat) : List Bool :=
  (List.range n).map (fun i => decide (k / 2 ^ (n - 1 - i) % 2 = 1))

/-- Number of variables of `1..n` unassigned in `A` (a proof-side measure for
the recursion depth of `dfs`). -/
def unassignedCount (n : Nat) (A : Assignment) : Nat :=
  ((List.range' 1 n).filter (fun v => !(Aget A v).isSome)).length

/-! ### Dictionary lemmas -/

lemma Aget_eq_none_iff {A : Assignment} {v : Nat} :
    Aget A v = none ↔ ∀ p ∈ A, p.1 ≠ v := by
  induction A with
  | nil => simp [Aget]
  | cons p A ih =>
    by_cases h : p.1 = v <;> simp [Aget, h, ih]

lemma exists_of_Aget_some {A : Assignment} {v : Nat} {b : Bool}
    (h : Aget A v = some b) : (v, b) ∈ A := by
  induction A with
  | nil => simp [Aget] at h
  | cons p A ih =>
    by_cases hp : p.1 = v
    · rw [Aget, if_pos hp] at h
      obtain rfl : p.2 = b := by injection h
      rw [← hp]
      exact List.mem_cons_self _ _
    · rw [Aget, if_neg hp] at h
      exact List.mem_cons_of_mem _ (ih h)

lemma any_key_eq_false {A : Assignment} {v : Nat} (h : Aget A v = none) :
    A.any (fun p => p.1 == v) = false := by
  rw [List.any_eq_false]
  intro p hp
  simpa using Aget_eq_none_iff.mp h p hp

lemma Aset_of_unassigned {A : Assignment} {v : Nat} (b : Bool)
    (h : Aget A v = none) : Aset A v b = A ++ [(v, b)] := by
  rw [Aset, any_key_eq_false h]
  simp

lemma Aget_append (A B : Assignment) (v : Nat) :
    Aget (A ++ B) v = ((Aget A v).rec (Aget B v) (fun b => some b) : Option Bool) := by
  induction A with
  | nil => simp [Aget]
  | cons p A ih =>
    by_cases h : p.1 = v <;> simp [Aget, h, ih]

lemma Aget_Aset_self {A : Assignment} {v : Nat} (b : Bool)
    (h : Aget A v = none) : Aget (Aset A v b) v = some b := by
  rw [Aset_of_unassigned b h, Aget_append, h]
  simp [Aget]

lemma Aget_Aset_other {A : Assignment} {v w : Nat} (b : Bool)
    (h : Aget A v = none) (hw : w ≠ v) : Aget (Aset A v b) w = Aget A w := by
  rw [Aset_of_unassigned b h, Aget_append]
  cases hA : Aget A w with
  | some c => rfl
  | none => simp [Aget, Ne.symm hw]

lemma Aset_Aset {A : Assignment} {v : Nat} (b c : Bool)
    (h : Aget A v = none) : Aset (Aset A v b) v c = Aset A v c := by
  rw [Aset_of_unassigned b h, Aset_of_unassigned c h, Aset]
  have hany : (A ++ [(v, b)]).any (fun p => p.1 == v) = true := by
    rw [List.any_append]
    simp
  rw [if_pos hany, List.map_append]
  have hA : A.map (fun p => if p.1 == v then (v, c) else p) = A := by
    conv_rhs => rw [← List.map_id A]
    refine List.map_congr_left (fun p hp => ?_)
    have := Aget_eq_none_iff.mp h p hp
    simp [this]
  rw [hA]
  simp

lemma Adel_Aset {A : Assignment} {v : Nat} (b : Bool)
    (h : Aget A v = none) : Adel (Aset A v b) v = A := by
  rw [Aset_of_unassigned b h, Adel, List.filter_append]
  have hA : A.filter (fun p => !(p.1 == v)) = A := by
    rw [List.filter_eq_self]
    intro p hp
    have := Aget_eq_none_iff.mp h p hp
    simp [this]
  rw [hA]
  simp

lemma mem_Aset {A : Assignment} {v : Nat} {b : Bool} {p : Nat × Bool}
    (h : p ∈ Aset A v b) : p.1 = v ∨ p ∈ A := by
  rw [Aset] at h
  by_cases hany : A.any (fun q => q.1 == v) = true
  · rw [if_pos hany, List.mem_map] at h
    obtain ⟨q, hq, hqe⟩ := h
    by_cases hqv : q.1 = v
    · left
      simp only [hqv, beq_self_eq_true, if_pos] at hqe
      rw [← hqe]
    · right
      simp only [beq_eq_false_iff_ne, ne_eq, hqv, not_false_eq_true, beq_iff_eq, if_neg] at hqe
      rwa [← hqe]
  · rw [if_neg hany, List.mem_append] at h
    rcases h with h | h
    · right
      exact h
    · left
      simp at h
      rw [h]

lemma mem_Adel {A : Assignment} {v : Nat} {p : Nat × Bool}
    (h : p ∈ Adel A v) : p ∈ A :=
  List.mem_of_mem_filter h

/-! ### Evaluator lemmas -/

lemma literal_true_congr {lit : Int} {A A' : Assignment}
    (h : Aget A' lit.natAbs = Aget A lit.natAbs) :
    literal_true lit A' = literal_true lit A := by
  rw [literal_true, literal_true, h]

lemma literal_true_mono {lit : Int} {A A' : Assignment} (hx : Extends A A')
    (h : literal_true lit A = true) : literal_true lit A' = true := by
  rw [literal_true] at h ⊢
  cases hA : Aget A lit.natAbs with
  | none => rw [hA] at h; simp at h
  | some b => rw [hA] at h; rw [hx _ _ hA]; exact h

lemma clause_satisfied_mono {c : List Int} {A A' : Assignment} (hx : Extends A A')
    (h : clause_satisfied c A = true) : clause_satisfied c A' = true := by
  rw [clause_satisfied, List.any_eq_true] at h ⊢
  obtain ⟨lit, hmem, hlit⟩ := h
  exact ⟨lit, hmem, literal_true_mono hx hlit⟩

lemma SatAll_mono {cs : List (List Int)} {A A' : Assignment} (hx : Extends A A')
    (h : SatAll cs A) : SatAll cs A' :=
  fun c hc => clause_satisfied_mono hx (h c hc)

lemma clause_satisfied_eq_false_iff {c : List Int} {A : Assignment} :
    clause_satisfied c A = false ↔ ∀ lit ∈ c, literal_true lit A = false := by
  rw [clause_satisfied, List.any_eq_false]
  simp

lemma clause_impossible_loop_eq (A : Assignment) (c : List Int) :
    ∀ flag, clause_impossible_loop A c flag =
      (!flag && c.all (fun lit => (Aget A lit.natAbs).isSome && !literal_true lit A)) := by
  induction c with
  | nil => intro flag; simp [clause_impossible_loop]
  | cons lit rest ih =>
    intro flag
    rw [clause_impossible_loop]
    by_cases hu : (Aget A lit.natAbs).isSome = false
    · rw [if_pos hu, ih true]
      simp [hu]
    · rw [if_neg hu]
      rw [Bool.not_eq_false] at hu
      by_cases ht : literal_true lit A = true
      · rw [if_pos ht]
        simp [ht]
      · rw [if_neg ht, ih flag]
        rw [Bool.not_eq_true] at ht
        simp [hu, ht]

lemma clause_impossible_iff {c : List Int} {A : Assignment} :
    clause_impossible c A = true ↔
      ∀ lit ∈ c, (Aget A lit.natAbs).isSome = true ∧ literal_true lit A = false := by
  rw [clause_impossible, clause_impossible_loop_eq A c false]
  simp [List.all_eq_true]

lemma clause_impossible_ext {c : List Int} {A A' : Assignment}
    (h : clause_impossible c A = true) (hx : Extends A A') :
    clause_satisfied c A' = false := by
  rw [clause_satisfied_eq_false_iff]
  intro lit hmem
  obtain ⟨hs, hf⟩ := clause_impossible_iff.mp h lit hmem
  obtain ⟨b, hb⟩ := Option.isSome_iff_exists.mp hs
  have : Aget A' lit.natAbs = Aget A lit.natAbs := by rw [hb, hx _ _ hb]
  rw [literal_true_congr this, hf]

/-! ### `tri_state` characterization -/

lemma tri_state_loop_yes {A : Assignment} {cs : List (List Int)} :
    ∀ {flag}, tri_state_loop A cs flag = "yes" →
      (∀ c ∈ cs, clause_satisfied c A = true) ∧ flag = true := by
  induction cs with
  | nil =>
    intro flag h
    rw [tri_state_loop] at h
    cases flag
    · exact absurd h (by decide)
    · exact ⟨by simp, rfl⟩
  | cons c rest ih =>
    intro flag h
    rw [tri_state_loop] at h
    by_cases hs : clause_satisfied c A = true
    · rw [if_pos hs] at h
      obtain ⟨hall, hflag⟩ := ih h
      refine ⟨fun d hd => ?_, hflag⟩
      rcases List.mem_cons.mp hd with rfl | hd
      · exact hs
      · exact hall d hd
    · rw [if_neg hs] at h
      by_cases hi : clause_impossible c A = true
      · rw [if_pos hi] at h
        exact absurd h (by decide)
      · rw [if_neg hi] at h
        obtain ⟨_, hflag⟩ := ih h
        exact absurd hflag (by decide)

lemma tri_state_yes {cs : List (List Int)} {A : Assignment}
    (h : tri_state cs A = "yes") : SatAll cs A :=
  (tri_state_loop_yes h).1

lemma tri_state_loop_no {A : Assignment} {cs : List (List Int)} :
    ∀ {flag}, tri_state_loop A cs flag = "no" →
      ∃ c ∈ cs, clause_satisfied c A = false ∧ clause_impossible c A = true := by
  induction cs with
  | nil =>
    intro flag h
    rw [tri_state_loop] at h
    cases flag <;> exact absurd h (by decide)
  | cons c rest ih =>
    intro flag h
    rw [tri_state_loop] at h
    by_cases hs : clause_satisfied c A = true
    · rw [if_pos hs] at h
      obtain ⟨d, hd, hprop⟩ := ih h
      exact ⟨d, List.mem_cons_of_mem _ hd, hprop⟩
    · rw [if_neg hs] at h
      by_cases hi : clause_impossible c A = true
      · exact ⟨c, List.mem_cons_self _ _, by simpa using hs, hi⟩
      · rw [if_neg hi] at h
        obtain ⟨d, hd, hprop⟩ := ih h
        exact ⟨d, List.mem_cons_of_mem _ hd, hprop⟩

lemma tri_state_loop_maybe {A : Assignment} {cs : List (List Int)} :
    ∀ {flag}, tri_state_loop A cs flag = "maybe" →
      flag = false ∨ ∃ c ∈ cs, clause_satisfied c A = false ∧ clause_impossible c A = false := by
  induction cs with
  | nil =>
    intro flag h
    rw [tri_state_loop] at h
    cases flag
    · exact Or.inl rfl
    · exact absurd h (by decide)
  | cons c rest ih =>
    intro flag h
    rw [tri_state_loop] at h
    by_cases hs : clause_satisfied c A = true
    · rw [if_pos hs] at h
      rcases ih h with hflag | ⟨d, hd, hprop⟩
      · exact Or.inl hflag
      · exact Or.inr ⟨d, List.mem_cons_of_mem _ hd, hprop⟩
    · rw [if_neg hs] at h
      by_cases hi : clause_impossible c A = true
      · rw [if_pos hi] at h
        exact absurd h (by decide)
      · exact Or.inr ⟨c, List.mem_cons_self _ _, by simpa using hs, by simpa using hi⟩

lemma tri_state_loop_values (A : Assignment) (cs : List (List Int)) :
    ∀ flag, tri_state_loop A cs flag = "yes" ∨ tri_state_loop A cs flag = "no" ∨
      tri_state_loop A cs flag = "maybe" := by
  induction cs with
  | nil =>
    intro flag
    rw [tri_state_loop]
    cases flag
    · right; right; rfl
    · left; rfl
  | cons c rest ih =>
    intro flag
    rw [tri_state_loop]
    by_cases hs : clause_satisfied c A = true
    · rw [if_pos hs]; exact ih flag
    · rw [if_neg hs]
      by_cases hi : clause_impossible c A = true
      · rw [if_pos hi]; right; left; rfl
      · rw [if_neg hi]; exact ih false

lemma tri_state_maybe {cs : List (List Int)} {A : Assignment}
    (h1 : tri_state cs A ≠ "yes") (h2 : tri_state cs A ≠ "no") :
    ∃ c ∈ cs, clause_satisfied c A = false ∧ clause_impossible c A = false := by
  have hm : tri_state cs A = "maybe" := by
    rcases tri_state_loop_values A cs true with h | h | h
    · exact absurd h h1
    · exact absurd h h2
    · exact h
  rcases tri_state_loop_maybe hm with hflag | hex
  · exact absurd hflag (by decide)
  · exact hex

lemma tri_state_loop_of_mem_nil {A : Assignment} {cs : List (List Int)} (h : [] ∈ cs) :
    ∀ flag, tri_state_loop A cs flag = "no" := by
  induction cs with
  | nil => exact absurd h (List.not_mem_nil _)
  | cons c rest ih =>
    intro flag
    rw [tri_state_loop]
    rcases List.mem_cons.mp h with rfl | hmem
    · simp [clause_satisfied, clause_impossible, clause_impossible_loop]
    · by_cases hs : clause_satisfied c A = true
      · rw [if_pos hs]
        exact ih hmem flag
      · rw [if_neg hs]
        by_cases hi : clause_impossible c A = true
        · rw [if_pos hi]
        · rw [if_neg hi]
          exact ih hmem false

lemma tri_state_of_mem_nil {cs : List (List Int)} {A : Assignment} (h : [] ∈ cs) :
    tri_state cs A = "no" :=
  tri_state_loop_of_mem_nil h true

/-! ### `pick_unassigned` and `List.range'` -/

lemma find?_range'_eq_some {p : Nat → Bool} :
    ∀ {m s u : Nat}, (List.range' s m).find? p = some u →
      s ≤ u ∧ u < s + m ∧ p u = true ∧ ∀ w, s ≤ w → w < u → p w = false := by
  intro m
  induction m with
  | zero =>
    intro s u h
    simp [List.range'] at h
  | succ m ih =>
    intro s u h
    rw [List.range'_succ] at h
    by_cases hp : p s = true
    · rw [List.find?_cons_of_pos _ hp] at h
      obtain rfl : s = u := by injection h
      exact ⟨Nat.le_refl s, by omega, hp, fun w hw1 hw2 => by omega⟩
    · rw [List.find?_cons_of_neg _ (by simpa using hp)] at h
      obtain ⟨h1, h2, h3, h4⟩ := ih h
      refine ⟨by omega, by omega, h3, fun w hw1 hw2 => ?_⟩
      rcases Nat.eq_or_lt_of_le hw1 with rfl | hlt
      · simpa using hp
      · exact h4 w hlt hw2

lemma pick_unassigned_spec {n : Nat} {A : Assignment} {v : Nat}
    (h : pick_unassigned n A = v) (hv : v ≠ 0) :
    1 ≤ v ∧ v ≤ n ∧ Aget A v = none ∧
      ∀ w, 1 ≤ w → w < v → (Aget A w).isSome = true := by
  rw [pick_unassigned] at h
  cases hf : (List.range' 1 n).find? (fun u => !(Aget A u).isSome) with
  | none => rw [hf] at h; exact absurd h.symm hv
  | some u =>
    rw [hf] at h
    have huv : u = v := h
    obtain ⟨h1, h2, h3, h4⟩ := find?_range'_eq_some hf
    rw [← huv]
    have hnone : Aget A u = none := by
      cases hA : Aget A u with
      | none => rfl
      | some b => rw [hA] at h3; simp at h3
    refine ⟨h1, by omega, hnone, fun w hw1 hw2 => ?_⟩
    have hw := h4 w hw1 hw2
    cases hA : Aget A w with
    | none => rw [hA] at hw; simp at hw
    | some b => rfl

lemma pick_unassigned_eq_zero {n : Nat} {A : Assignment}
    (h : pick_unassigned n A = 0) :
    ∀ v, 1 ≤ v → v ≤ n → (Aget A v).isSome = true := by
  rw [pick_unassigned] at h
  cases hf : (List.range' 1 n).find? (fun u => !(Aget A u).isSome) with
  | none =>
    intro v hv1 hv2
    have hv := List.find?_eq_none.mp hf v (List.mem_range'_1.mpr ⟨hv1, by omega⟩)
    cases hA : Aget A v with
    | none => rw [hA] at hv; simp at hv
    | some b => rfl
  | some u =>
    rw [hf] at h
    have hu : u = 0 := h
    obtain ⟨h1, _, _, _⟩ := find?_range'_eq_some hf
    omega

/-! ### Bit tuples and the assignments they build -/

lemma Aget_bitsToA_from : ∀ (bits : List Bool) (k v : Nat),
    Aget (bitsToA_from k bits) v =
      if k ≤ v ∧ v < k + bits.length then some (bits.getD (v - k) false) else none := by
  intro bits
  induction bits with
  | nil =>
    intro k v
    rw [bitsToA_from, if_neg (by simp only [List.length_nil]; omega)]
    rfl
  | cons b bs ih =>
    intro k v
    rw [bitsToA_from, Aget]
    simp only [List.length_cons]
    by_cases hk : k = v
    · subst hk
      rw [if_pos rfl, if_pos (by omega), Nat.sub_self, List.getD_cons_zero]
    · rw [if_neg hk, ih (k + 1) v]
      by_cases hv : k + 1 ≤ v ∧ v < k + 1 + bs.length
      · rw [if_pos hv, if_pos (by omega)]
        have hsub : v - k = (v - (k + 1)) + 1 := by omega
        rw [hsub, List.getD_cons_succ]
      · rw [if_neg hv, if_neg (by omega)]

lemma keys_bitsToA_from : ∀ (bits : List Bool) (k : Nat),
    (bitsToA_from k bits).map Prod.fst = List.range' k bits.length := by
  intro bits
  induction bits with
  | nil => intro k; rfl
  | cons b bs ih =>
    intro k
    rw [bitsToA_from, List.map_cons, List.length_cons, List.range'_succ, ih (k + 1)]

lemma bitsToA_from_map_range' (g : Nat → Bool) : ∀ (m k : Nat),
    bitsToA_from k ((List.range' k m).map g) = (List.range' k m).map (fun v => (v, g v)) := by
  intro m
  induction m with
  | zero => intro k; rfl
  | succ m ih =>
    intro k
    rw [List.range'_succ, List.map_cons, bitsToA_from, List.map_cons, ih (k + 1)]

lemma Aget_map_range' (g : Nat → Bool) : ∀ (m s w : Nat),
    Aget ((List.range' s m).map (fun v => (v, g v))) w =
      if s ≤ w ∧ w < s + m then some (g w) else none := by
  intro m
  induction m with
  | zero =>
    intro s w
    have h0 : (List.range' s 0).map (fun v => (v, g v)) = [] := rfl
    rw [h0, if_neg (by omega)]
    rfl
  | succ m ih =>
    intro s w
    rw [List.range'_succ, List.map_cons, Aget]
    by_cases hs : s = w
    · subst hs
      rw [if_pos rfl, if_pos (by omega)]
    · rw [if_neg hs, ih (s + 1) w]
      by_cases hw : s + 1 ≤ w ∧ w < s + 1 + m
      · rw [if_pos hw, if_pos (by omega)]
      · rw [if_neg hw, if_neg (by omega)]

lemma mem_allBits : ∀ (n : Nat) (bits : List Bool), bits ∈ allBits n ↔ bits.length = n := by
  intro n
  induction n with
  | zero =>
    intro bits
    simp [allBits, List.length_eq_zero]
  | succ n ih =>
    intro bits
    rw [allBits]
    simp only [List.mem_flatMap, List.mem_map]
    constructor
    · rintro ⟨b, _, bs, hbs, rfl⟩
      rw [List.length_cons, (ih bs).mp hbs]
    · intro hlen
      cases bits with
      | nil => simp at hlen
      | cons b bs =>
        refine ⟨b, by cases b <;> simp, bs, (ih bs).mpr ?_, rfl⟩
        simpa using hlen

/-! ### The unassigned-variable measure -/

lemma filter_length_update {p q : Nat → Bool} :
    ∀ {l : List Nat} {v : Nat}, l.Nodup → v ∈ l → p v = true → q v = false →
      (∀ w ∈ l, w ≠ v → q w = p w) →
      (l.filter q).length + 1 = (l.filter p).length := by
  intro l
  induction l with
  | nil => intro v _ hmem; exact absurd hmem (List.not_mem_nil _)
  | cons a l ih =>
    intro v hnd hmem hp hq hcongr
    obtain ⟨hna, hnd'⟩ := List.nodup_cons.mp hnd
    rcases List.mem_cons.mp hmem with rfl | hmem'
    · rw [List.filter_cons_of_neg (by simpa using hq), List.filter_cons_of_pos (by simpa using hp)]
      have heq : l.filter q = l.filter p :=
        List.filter_congr (fun w hw => hcongr w (List.mem_cons_of_mem _ hw)
          (fun hwv => hna (hwv ▸ hw)))
      rw [heq, List.length_cons]
    · have hav : a ≠ v := fun hav => hna (hav ▸ hmem')
      have hqa : q a = p a := hcongr a (List.mem_cons_self _ _) hav
      have ihl := ih hnd' hmem' hp hq (fun w hw hwv => hcongr w (List.mem_cons_of_mem _ hw) hwv)
      cases hpa : p a with
      | true =>
        rw [List.filter_cons_of_pos (by rw [hqa]; exact hpa), List.filter_cons_of_pos hpa,
          List.length_cons, List.length_cons]
        omega
      | false =>
        rw [List.filter_cons_of_neg (by simp [hqa, hpa]), List.filter_cons_of_neg (by simp [hpa])]
        exact ihl

lemma unassignedCount_pos {n v : Nat} {A : Assignment}
    (h1 : 1 ≤ v) (h2 : v ≤ n) (h3 : Aget A v = none) : 0 < unassignedCount n A := by
  rw [unassignedCount]
  have hv : v ∈ (List.range' 1 n).filter (fun w => !(Aget A w).isSome) := by
    rw [List.mem_filter]
    refine ⟨List.mem_range'_1.mpr ⟨h1, by omega⟩, ?_⟩
    rw [h3]
    rfl
  exact List.length_pos.mpr (List.ne_nil_of_mem hv)

lemma unassignedCount_Aset {n v : Nat} {A : Assignment} (b : Bool)
    (h1 : 1 ≤ v) (h2 : v ≤ n) (h3 : Aget A v = none) :
    unassignedCount n (Aset A v b) + 1 = unassignedCount n A := by
  rw [unassignedCount, unassignedCount]
  refine filter_length_update (List.nodup_range' 1 n) (List.mem_range'_1.mpr ⟨h1, by omega⟩)
    ?_ ?_ ?_
  · rw [h3]
    rfl
  · rw [Aget_Aset_self b h3]
    rfl
  · intro w _ hwv
    rw [Aget_Aset_other b h3 hwv]

lemma unassignedCount_nil (n : Nat) : unassignedCount n [] = n := by
  rw [unassignedCount]
  have hself : (List.range' 1 n).filter (fun w => !(Aget [] w).isSome) = List.range' 1 n :=
    List.filter_eq_self.mpr (fun w _ => rfl)
  rw [hself, List.length_range']

/-! ### Brute-force characterization -/

lemma sat_bruteforce_eq_true {n : Nat} {cs : List (List Int)} {M : Assignment}
    (h : sat_bruteforce n cs = (true, M)) :
    ∃ bits, bits.length = n ∧ M = bitsToA bits ∧ SatAll cs (bitsToA bits) := by
  rw [sat_bruteforce] at h
  cases hf : (allBits n).find? (fun bits => cs.all (fun c => clause_satisfied c (bitsToA bits))) with
  | none => rw [hf] at h; simp at h
  | some bits =>
    rw [hf] at h
    have hM : M = bitsToA bits := by
      injection h with h1 h2
      exact h2.symm
    have hmem := List.mem_of_find?_eq_some hf
    have hpred := List.find?_some hf
    exact ⟨bits, (mem_allBits n bits).mp hmem, hM,
      fun c hc => List.all_eq_true.mp hpred c hc⟩

lemma sat_bruteforce_fst_true_iff (n : Nat) (cs : List (List Int)) :
    (sat_bruteforce n cs).1 = true ↔ ∃ bits, bits.length = n ∧ SatAll cs (bitsToA bits) := by
  rw [sat_bruteforce]
  cases hf : (allBits n).find? (fun bits => cs.all (fun c => clause_satisfied c (bitsToA bits))) with
  | none =>
    simp only []
    constructor
    · intro h
      exact absurd h (by decide)
    · rintro ⟨bits, hlen, hsat⟩
      have hnone := List.find?_eq_none.mp hf bits ((mem_allBits n bits).mpr hlen)
      exact absurd (List.all_eq_true.mpr hsat) hnone
  | some bits =>
    simp only []
    constructor
    · intro _
      have hmem := List.mem_of_find?_eq_some hf
      have hpred := List.find?_some hf
      exact ⟨bits, (mem_allBits n bits).mp hmem, fun c hc => List.all_eq_true.mp hpred c hc⟩
    · intro _
      trivial

lemma sat_bruteforce_of_fst_false {n : Nat} {cs : List (List Int)}
    (h : (sat_bruteforce n cs).1 = false) : sat_bruteforce n cs = (false, []) := by
  rw [sat_bruteforce] at h ⊢
  cases hf : (allBits n).find? (fun bits => cs.all (fun c => clause_satisfied c (bitsToA bits))) with
  | none => simp only [hf]
  | some bits => simp [hf] at h

lemma sat_bruteforce_keys {n : Nat} {cs : List (List Int)} {M : Assignment}
    (h : sat_bruteforce n cs = (true, M)) :
    M.map Prod.fst = List.range' 1 n ∧
      ∀ v, (Aget M v).isSome = true ↔ (1 ≤ v ∧ v ≤ n) := by
  obtain ⟨bits, hlen, hM, _⟩ := sat_bruteforce_eq_true h
  subst hM
  constructor
  · rw [bitsToA, keys_bitsToA_from, hlen]
  · intro v
    rw [bitsToA, Aget_bitsToA_from, hlen]
    by_cases hv : 1 ≤ v ∧ v < 1 + n
    · rw [if_pos hv]
      constructor
      · intro _
        omega
      · intro _
        rfl
    · rw [if_neg hv]
      constructor
      · intro hcon
        simp at hcon
      · intro hcon
        omega

/-! ### Building total extensions -/

lemma extends_nil (A : Assignment) : Extends [] A := by
  intro v b h
  simp [Aget] at h

lemma totalOver_bitsToA {n : Nat} {bits : List Bool} (hlen : bits.length = n) :
    TotalOver n (bitsToA bits) := by
  intro v h1 h2
  rw [bitsToA, Aget_bitsToA_from, hlen, if_pos (by omega)]
  rfl

lemma model_to_total {n : Nat} {M : Assignment}
    (hk : ∀ p ∈ M, 1 ≤ p.1 ∧ p.1 ≤ n) :
    ∃ bits, bits.length = n ∧ Extends M (bitsToA bits) ∧ TotalOver n (bitsToA bits) := by
  refine ⟨(List.range' 1 n).map (fun v => (Aget M v).getD false), ?_, ?_, ?_⟩
  · rw [List.length_map, List.length_range']
  · intro v b hb
    have hmem := exists_of_Aget_some hb
    have hv : 1 ≤ v ∧ v ≤ n := hk _ hmem
    rw [bitsToA, bitsToA_from_map_range', Aget_map_range', if_pos (by omega), hb]
    rfl
  · intro v h1 h2
    rw [bitsToA, bitsToA_from_map_range', Aget_map_range', if_pos (by omega)]
    rfl

/-! ### The `dfs` search: soundness, key bounds, frame property, completeness -/

lemma dfs_sound {cs : List (List Int)} {n : Nat} :
    ∀ (fuel : Nat) (A sm : Assignment), (dfs cs n fuel A sm).1 = true →
      SatAll cs (dfs cs n fuel A sm).2.2 := by
  intro fuel
  induction fuel with
  | zero =>
    intro A sm h
    simp [dfs] at h
  | succ fuel ih =>
    intro A sm h
    simp only [dfs] at h ⊢
    by_cases hy : tri_state cs A = "yes"
    · rw [if_pos hy] at h ⊢
      exact tri_state_yes hy
    · rw [if_neg hy] at h ⊢
      by_cases hn : tri_state cs A = "no"
      · rw [if_pos hn] at h
        simp at h
      · rw [if_neg hn] at h ⊢
        by_cases hv : pick_unassigned n A = 0
        · rw [if_pos hv] at h
          simp at h
        · rw [if_neg hv] at h ⊢
          by_cases h1 : (dfs cs n fuel (Aset A (pick_unassigned n A) true) sm).1 = true
          · rw [if_pos h1] at h ⊢
            exact ih _ _ h1
          · rw [if_neg h1] at h ⊢
            by_cases h2 : (dfs cs n fuel
                (Aset (dfs cs n fuel (Aset A (pick_unassigned n A) true) sm).2.1
                  (pick_unassigned n A) false)
                (dfs cs n fuel (Aset A (pick_unassigned n A) true) sm).2.2).1 = true
            · rw [if_pos h2] at h ⊢
              exact ih _ _ h2
            · rw [if_neg h2] at h
              simp at h

lemma dfs_keys {cs : List (List Int)} {n : Nat} :
    ∀ (fuel : Nat) (A sm : Assignment),
      (∀ p ∈ A, 1 ≤ p.1 ∧ p.1 ≤ n) →
      (∀ p ∈ (dfs cs n fuel A sm).2.1, 1 ≤ p.1 ∧ p.1 ≤ n) ∧
      ((dfs cs n fuel A sm).1 = true →
        ∀ p ∈ (dfs cs n fuel A sm).2.2, 1 ≤ p.1 ∧ p.1 ≤ n) := by
  intro fuel
  induction fuel with
  | zero =>
    intro A sm hA
    refine ⟨hA, fun h => ?_⟩
    simp [dfs] at h
  | succ fuel ih =>
    intro A sm hA
    simp only [dfs]
    by_cases hy : tri_state cs A = "yes"
    · rw [if_pos hy]
      exact ⟨hA, fun _ => hA⟩
    · rw [if_neg hy]
      by_cases hn : tri_state cs A = "no"
      · rw [if_pos hn]
        exact ⟨hA, fun h => by simp at h⟩
      · rw [if_neg hn]
        by_cases hv : pick_unassigned n A = 0
        · rw [if_pos hv]
          exact ⟨hA, fun h => by simp at h⟩
        · rw [if_neg hv]
          obtain ⟨hp1, hp2, _, _⟩ := pick_unassigned_spec (v := pick_unassigned n A) rfl hv
          have hkeys1 : ∀ p ∈ Aset A (pick_unassigned n A) true, 1 ≤ p.1 ∧ p.1 ≤ n := by
            intro p hp
            rcases mem_Aset hp with hpv | hpA
            · rw [hpv]
              exact ⟨hp1, hp2⟩
            · exact hA p hpA
          obtain ⟨hA1, hm1⟩ := ih (Aset A (pick_unassigned n A) true) sm hkeys1
          by_cases h1 : (dfs cs n fuel (Aset A (pick_unassigned n A) true) sm).1 = true
          · rw [if_pos h1]
            exact ⟨hA1, hm1⟩
          · rw [if_neg h1]
            have hkeys2 : ∀ p ∈ Aset (dfs cs n fuel (Aset A (pick_unassigned n A) true) sm).2.1
                (pick_unassigned n A) false, 1 ≤ p.1 ∧ p.1 ≤ n := by
              intro p hp
              rcases mem_Aset hp with hpv | hpA
              · rw [hpv]
                exact ⟨hp1, hp2⟩
              · exact hA1 p hpA
            obtain ⟨hA2, hm2⟩ := ih _ _ hkeys2
            by_cases h2 : (dfs cs n fuel
                (Aset (dfs cs n fuel (Aset A (pick_unassigned n A) true) sm).2.1
                  (pick_unassigned n A) false)
                (dfs cs n fuel (Aset A (pick_unassigned n A) true) sm).2.2).1 = true
            · rw [if_pos h2]
              exact ⟨hA2, hm2⟩
            · rw [if_neg h2]
              refine ⟨fun p hp => hA2 p (mem_Adel hp), fun h => by simp at h⟩

lemma dfs_fail_frame {cs : List (List Int)} {n : Nat} :
    ∀ (fuel : Nat) (A sm : Assignment), unassignedCount n A < fuel →
      (dfs cs n fuel A sm).1 = false → dfs cs n fuel A sm = (false, A, sm) := by
  intro fuel
  induction fuel with
  | zero =>
    intro A sm hcnt _
    exact absurd hcnt (Nat.not_lt_zero _)
  | succ fuel ih =>
    intro A sm hcnt h
    simp only [dfs] at h ⊢
    by_cases hy : tri_state cs A = "yes"
    · rw [if_pos hy] at h
      simp at h
    · rw [if_neg hy] at h ⊢
      by_cases hn : tri_state cs A = "no"
      · rw [if_pos hn]
      · rw [if_neg hn] at h ⊢
        by_cases hv : pick_unassigned n A = 0
        · rw [if_pos hv]
        · rw [if_neg hv] at h ⊢
          obtain ⟨hp1, hp2, hp3, _⟩ := pick_unassigned_spec (v := pick_unassigned n A) rfl hv
          have hpos := unassignedCount_pos hp1 hp2 hp3
          have hstep := unassignedCount_Aset true hp1 hp2 hp3
          have hcnt1 : unassignedCount n (Aset A (pick_unassigned n A) true) < fuel := by omega
          have h1 : (dfs cs n fuel (Aset A (pick_unassigned n A) true) sm).1 = false := by
            by_cases hb : (dfs cs n fuel (Aset A (pick_unassigned n A) true) sm).1 = true
            · rw [if_pos hb] at h
              rw [h] at hb
              exact Bool.noConfusion hb
            · simpa using hb
          have hfr1 := ih (Aset A (pick_unassigned n A) true) sm hcnt1 h1
          rw [if_neg (by simp [h1])] at h ⊢
          simp only [hfr1] at h ⊢
          rw [Aset_Aset true false hp3] at h ⊢
          have hstep2 := unassignedCount_Aset false hp1 hp2 hp3
          have hcnt2 : unassignedCount n (Aset A (pick_unassigned n A) false) < fuel := by omega
          have h2 : (dfs cs n fuel (Aset A (pick_unassigned n A) false) sm).1 = false := by
            by_cases hb : (dfs cs n fuel (Aset A (pick_unassigned n A) false) sm).1 = true
            · rw [if_pos hb] at h
              rw [h] at hb
              exact Bool.noConfusion hb
            · simpa using hb
          have hfr2 := ih (Aset A (pick_unassigned n A) false) sm hcnt2 h2
          rw [if_neg (by simp [h2])]
          simp only [hfr2]
          rw [Adel_Aset false hp3]

lemma dfs_complete {cs : List (List Int)} {n : Nat} (hwf : ClausesWF n cs) :
    ∀ (fuel : Nat) (A sm : Assignment), unassignedCount n A < fuel →
      (dfs cs n fuel A sm).1 = false →
      ∀ T, Extends A T → TotalOver n T → ¬ SatAll cs T := by
  intro fuel
  induction fuel with
  | zero =>
    intro A sm hcnt
    exact absurd hcnt (Nat.not_lt_zero _)
  | succ fuel ih =>
    intro A sm hcnt h T hext htot hsat
    simp only [dfs] at h
    by_cases hy : tri_state cs A = "yes"
    · rw [if_pos hy] at h
      simp at h
    · rw [if_neg hy] at h
      by_cases hn : tri_state cs A = "no"
      · rw [tri_state] at hn
        obtain ⟨c, hc, hcsat, hcimp⟩ := tri_state_loop_no hn
        have hTfalse := clause_impossible_ext hcimp hext
        have hTc := hsat c hc
        rw [hTfalse] at hTc
        exact Bool.noConfusion hTc
      · rw [if_neg hn] at h
        by_cases hv : pick_unassigned n A = 0
        · obtain ⟨c, hc, hcsat, hcimp⟩ := tri_state_maybe hy hn
          rw [clause_satisfied_eq_false_iff] at hcsat
          have hnot : ¬ ∀ lit ∈ c, (Aget A lit.natAbs).isSome = true ∧
              literal_true lit A = false := by
            intro hall
            rw [clause_impossible_iff.mpr hall] at hcimp
            exact Bool.noConfusion hcimp
          push_neg at hnot
          obtain ⟨lit, hlit, hbad⟩ := hnot
          have hfalse := hcsat lit hlit
          have hbounds := hwf c hc lit hlit
          have hassigned := pick_unassigned_eq_zero hv lit.natAbs hbounds.2.1 hbounds.2.2
          exact hbad hassigned hfalse
        · rw [if_neg hv] at h
          obtain ⟨hp1, hp2, hp3, _⟩ := pick_unassigned_spec (v := pick_unassigned n A) rfl hv
          have hpos := unassignedCount_pos hp1 hp2 hp3
          have hstep := unassignedCount_Aset true hp1 hp2 hp3
          have hcnt1 : unassignedCount n (Aset A (pick_unassigned n A) true) < fuel := by omega
          have h1 : (dfs cs n fuel (Aset A (pick_unassigned n A) true) sm).1 = false := by
            by_cases hb : (dfs cs n fuel (Aset A (pick_unassigned n A) true) sm).1 = true
            · rw [if_pos hb] at h
              rw [h] at hb
              exact Bool.noConfusion hb
            · simpa using hb
          have hfr1 := dfs_fail_frame fuel (Aset A (pick_unassigned n A) true) sm hcnt1 h1
          rw [if_neg (by simp [h1])] at h
          simp only [hfr1] at h
          rw [Aset_Aset true false hp3] at h
          have hstep2 := unassignedCount_Aset false hp1 hp2 hp3
          have hcnt2 : unassignedCount n (Aset A (pick_unassigned n A) false) < fuel := by omega
          have h2 : (dfs cs n fuel (Aset A (pick_unassigned n A) false) sm).1 = false := by
            by_cases hb : (dfs cs n fuel (Aset A (pick_unassigned n A) false) sm).1 = true
            · rw [if_pos hb] at h
              rw [h] at hb
              exact Bool.noConfusion hb
            · simpa using hb
          have hvT : (Aget T (pick_unassigned n A)).isSome = true := htot _ hp1 hp2
          obtain ⟨b, hb⟩ := Option.isSome_iff_exists.mp hvT
          have hextb : Extends (Aset A (pick_unassigned n A) b) T := by
            intro w c hw
            by_cases hwv : w = pick_unassigned n A
            · subst hwv
              rw [Aget_Aset_self b hp3] at hw
              injection hw with hw
              rw [← hw]
              exact hb
            · rw [Aget_Aset_other b hp3 hwv] at hw
              exact hext w c hw
          cases b
          · exact ih (Aset A (pick_unassigned n A) false) sm hcnt2 h2 T hextb htot hsat
          · exact ih (Aset A (pick_unassigned n A) true) sm hcnt1 h1 T hextb htot hsat

/-! ### `sat_backtracking` unfolding -/

lemma sat_backtracking_eq_true {n : Nat} {cs : List (List Int)} {M : Assignment}
    (h : sat_backtracking n cs = (true, M)) :
    (dfs cs n (n + 1) [] []).1 = true ∧ M = (dfs cs n (n + 1) [] []).2.2 := by
  simp only [sat_backtracking] at h
  by_cases hb : (dfs cs n (n + 1) [] []).1 = true
  · rw [if_pos hb] at h
    injection h with h1 h2
    exact ⟨hb, h2.symm⟩
  · rw [if_neg hb] at h
    injection h with h1 h2
    exact absurd h1 Bool.noConfusion

lemma sat_backtracking_fst (n : Nat) (cs : List (List Int)) :
    (sat_backtracking n cs).1 = (dfs cs n (n + 1) [] []).1 := by
  simp only [sat_backtracking]
  by_cases hb : (dfs cs n (n + 1) [] []).1 = true
  · rw [if_pos hb, hb]
  · rw [if_neg hb]
    have hb' : (dfs cs n (n + 1) [] []).1 = false := by simpa using hb
    rw [hb']

/-! ### The brute-force enumeration order as a binary counter -/

lemma counterBits_succ_split (n k : Nat) :
    counterBits (n + 1) k =
      (decide (k / 2 ^ n % 2 = 1)) ::
        (List.range n).map (fun i => decide (k / 2 ^ (n - 1 - i) % 2 = 1)) := by
  rw [counterBits, List.range_succ_eq_map, List.map_cons, List.map_map]
  congr 1
  refine List.map_congr_left (fun i hi => ?_)
  simp only [Function.comp_apply, Nat.succ_eq_add_one]
  have h2 : n + 1 - 1 - (i + 1) = n - 1 - i := by omega
  rw [h2]

lemma counterBits_of_lt {n k : Nat} (hk : k < 2 ^ n) :
    counterBits (n + 1) k = false :: counterBits n k := by
  rw [counterBits_succ_split, counterBits]
  congr 1
  rw [Nat.div_eq_of_lt hk]
  decide

lemma counterBits_of_ge {n k : Nat} (hk : k < 2 ^ n) :
    counterBits (n + 1) (2 ^ n + k) = true :: counterBits n k := by
  rw [counterBits_succ_split, counterBits]
  congr 1
  · have hdiv : (2 ^ n + k) / 2 ^ n = 1 := by
      rw [Nat.add_comm, Nat.add_div_right _ (Nat.two_pow_pos n), Nat.div_eq_of_lt hk]
    rw [hdiv]
    decide
  · refine List.map_congr_left (fun i hi => ?_)
    have hin : i < n := List.mem_range.mp hi
    set j := n - 1 - i with hjdef
    have h2n : 2 ^ (n - j - 1) * 2 * 2 ^ j = 2 ^ n := by
      rw [← pow_succ, ← pow_add]
      congr 1
      omega
    have hcalc : (2 ^ n + k) / 2 ^ j % 2 = k / 2 ^ j % 2 := by
      calc (2 ^ n + k) / 2 ^ j % 2
          = (k + 2 ^ (n - j - 1) * 2 * 2 ^ j) / 2 ^ j % 2 := by rw [Nat.add_comm, h2n]
        _ = (k / 2 ^ j + 2 ^ (n - j - 1) * 2) % 2 := by
            rw [Nat.add_mul_div_right _ _ (Nat.two_pow_pos j)]
        _ = k / 2 ^ j % 2 := by rw [Nat.add_mul_mod_self_right]
    rw [hcalc]

lemma allBits_eq_counter : ∀ n : Nat, allBits n = (List.range (2 ^ n)).map (counterBits n) := by
  intro n
  induction n with
  | zero => rfl
  | succ n ih =>
    have hflat : ([false, true]).flatMap (fun b => (allBits n).map (fun bs => b :: bs)) =
        (allBits n).map (fun bs => false :: bs) ++ (allBits n).map (fun bs => true :: bs) := by
      simp
    rw [allBits, hflat, ih]
    have hpow : 2 ^ (n + 1) = 2 ^ n + 2 ^ n := by
      rw [pow_succ]
      omega
    rw [hpow, List.range_add, List.map_append]
    simp only [List.map_map]
    congr 1
    · refine List.map_congr_left (fun k hk => ?_)
      have hkn : k < 2 ^ n := List.mem_range.mp hk
      simp only [Function.comp_apply]
      exact (counterBits_of_lt hkn).symm
    · refine List.map_congr_left (fun k hk => ?_)
      have hkn : k < 2 ^ n := List.mem_range.mp hk
      simp only [Function.comp_apply]
      exact (counterBits_of_ge hkn).symm

lemma sat_bruteforce_first {n : Nat} {cs : List (List Int)} {M : Assignment}
    (h : sat_bruteforce n cs = (true, M)) :
    ∃ k, k < 2 ^ n ∧ M = bitsToA (counterBits n k) ∧
      cs.all (fun c => clause_satisfied c (bitsToA (counterBits n k))) = true ∧
      ∀ j, j < k → cs.all (fun c => clause_satisfied c (bitsToA (counterBits n j))) = false := by
  rw [sat_bruteforce] at h
  cases hf : (allBits n).find? (fun bits => cs.all (fun c => clause_satisfied c (bitsToA bits))) with
  | none => rw [hf] at h; simp at h
  | some bits =>
    rw [hf] at h
    have hM : M = bitsToA bits := by
      injection h with h1 h2
      exact h2.symm
    rw [allBits_eq_counter n, List.find?_map] at hf
    cases hg : (List.range (2 ^ n)).find?
        ((fun bits => cs.all (fun c => clause_satisfied c (bitsToA bits))) ∘ counterBits n) with
    | none => rw [hg] at hf; simp at hf
    | some k =>
      rw [hg] at hf
      simp only [Option.map_some'] at hf
      have hbits : counterBits n k = bits := by
        injection hf
      rw [List.range_eq_range'] at hg
      obtain ⟨hk1, hk2, hk3, hk4⟩ := find?_range'_eq_some hg
      refine ⟨k, by omega, by rw [hM, hbits], hk3, fun j hj => hk4 j (by omega) hj⟩

/-! ### Witness construction for non-impossible clauses -/

lemma Aget_append_of_some {A B : Assignment} {v : Nat} {b : Bool}
    (h : Aget A v = some b) : Aget (A ++ B) v = some b := by
  rw [Aget_append, h]

lemma Aget_append_of_none {A B : Assignment} {v : Nat}
    (h : Aget A v = none) : Aget (A ++ B) v = Aget B v := by
  rw [Aget_append, h]

lemma Aget_isSome_of_key_mem {L : Assignment} {v : Nat}
    (h : ∃ p ∈ L, p.1 = v) : (Aget L v).isSome = true := by
  induction L with
  | nil =>
    obtain ⟨p, hp, _⟩ := h
    exact absurd hp (List.not_mem_nil _)
  | cons q L ih =>
    rw [Aget]
    by_cases hq : q.1 = v
    · rw [if_pos hq]
      rfl
    · rw [if_neg hq]
      obtain ⟨p, hp, hpv⟩ := h
      rcases List.mem_cons.mp hp with rfl | hp'
      · exact absurd hpv hq
      · exact ih ⟨p, hp', hpv⟩

lemma clause_possible_witness {c : List Int} {A : Assignment}
    (hnz : ∀ lit ∈ c, lit ≠ 0) (h : clause_impossible c A = false) :
    ∃ T, Extends A T ∧ (∀ lit ∈ c, (Aget T lit.natAbs).isSome = true) ∧
      clause_satisfied c T = true := by
  set L := (c.filter (fun l => !(Aget A l.natAbs).isSome)).map
    (fun l => (l.natAbs, decide (0 < l))) with hL
  refine ⟨A ++ L, fun v b hb => Aget_append_of_some hb, ?_, ?_⟩
  · intro lit hlit
    cases hA : Aget A lit.natAbs with
    | some b =>
      rw [Aget_append_of_some hA]
      rfl
    | none =>
      rw [Aget_append_of_none hA]
      apply Aget_isSome_of_key_mem
      refine ⟨(lit.natAbs, decide (0 < lit)), ?_, rfl⟩
      rw [hL]
      apply List.mem_map_of_mem
      rw [List.mem_filter]
      refine ⟨hlit, ?_⟩
      show (!(Aget A lit.natAbs).isSome) = true
      rw [hA]
      rfl
  · have hnot : ¬ ∀ lit ∈ c, (Aget A lit.natAbs).isSome = true ∧
        literal_true lit A = false := by
      intro hall
      rw [clause_impossible_iff.mpr hall] at h
      exact Bool.noConfusion h
    push_neg at hnot
    obtain ⟨lit, hlit, hbad⟩ := hnot
    by_cases htrue : ∃ l ∈ c, literal_true l A = true
    · obtain ⟨l, hl, hlt⟩ := htrue
      rw [clause_satisfied, List.any_eq_true]
      exact ⟨l, hl, literal_true_mono (fun v b hb => Aget_append_of_some hb) hlt⟩
    · push_neg at htrue
      have hltf : literal_true lit A = false := by
        have := htrue lit hlit
        simpa using this
      have hunas : Aget A lit.natAbs = none := by
        cases hA : Aget A lit.natAbs with
        | none => rfl
        | some b =>
          refine (hbad ?_ hltf).elim
          rw [hA]
          rfl
      cases hF : c.filter (fun l => !(Aget A l.natAbs).isSome) with
      | nil =>
        have hmem : lit ∈ c.filter (fun l => !(Aget A l.natAbs).isSome) := by
          rw [List.mem_filter]
          refine ⟨hlit, ?_⟩
          show (!(Aget A lit.natAbs).isSome) = true
          rw [hunas]
          rfl
        rw [hF] at hmem
        exact absurd hmem (List.not_mem_nil _)
      | cons l1 F =>
        have hl1mem : l1 ∈ c.filter (fun l => !(Aget A l.natAbs).isSome) := by
          rw [hF]
          exact List.mem_cons_self _ _
        rw [List.mem_filter] at hl1mem
        obtain ⟨hl1c, hl1un⟩ := hl1mem
        have hl1un' : (!(Aget A l1.natAbs).isSome) = true := hl1un
        have hl1none : Aget A l1.natAbs = none := by
          cases hA : Aget A l1.natAbs with
          | none => rfl
          | some b =>
            rw [hA] at hl1un'
            exact Bool.noConfusion hl1un'
        have hgetT : Aget (A ++ L) l1.natAbs = some (decide (0 < l1)) := by
          rw [Aget_append_of_none hl1none, hL, hF, List.map_cons, Aget, if_pos rfl]
        have hl1true : literal_true l1 (A ++ L) = true := by
          rw [literal_true, hgetT]
          rcases lt_trichotomy l1 0 with hl | hl | hl
          · simp [hl, lt_asymm hl]
          · exact absurd hl (hnz l1 hl1c)
          · simp [hl]
        rw [clause_satisfied, List.any_eq_true]
        exact ⟨l1, hl1c, hl1true⟩

/-! ## Claim theorems -/

/-- Claim C1: Soundness.  For every formula whose literals are non-zero with
absolute value in `[1, n_vars]`, if either `sat_bruteforce` or
`sat_backtracking` returns `satisfiable = true`, then the returned model,
extended to any total assignment, makes `clause_satisfied` true for every
clause of the formula. -/
theorem sat_sound (n : Nat) (cs : List (List Int)) (_hwf : ClausesWF n cs) :
    (∀ M, sat_bruteforce n cs = (true, M) →
      ∀ T, Extends M T → TotalOver n T → SatAll cs T) ∧
    (∀ M, sat_backtracking n cs = (true, M) →
      ∀ T, Extends M T → TotalOver n T → SatAll cs T) := by
  constructor
  · intro M h T hext _
    obtain ⟨bits, _, hM, hsat⟩ := sat_bruteforce_eq_true h
    have hMsat : SatAll cs M := by
      rw [hM]
      exact hsat
    exact SatAll_mono hext hMsat
  · intro M h T hext _
    obtain ⟨hfst, hM⟩ := sat_backtracking_eq_true h
    have hsat := dfs_sound (n + 1) [] [] hfst
    have hMsat : SatAll cs M := by
      rw [hM]
      exact hsat
    exact SatAll_mono hext hMsat

theorem sat_sound_witness :
    ClausesWF 1 [[1]] ∧
    ((∀ M, sat_bruteforce 1 [[1]] = (true, M) →
      ∀ T, Extends M T → TotalOver 1 T → SatAll [[1]] T) ∧
    (∀ M, sat_backtracking 1 [[1]] = (true, M) →
      ∀ T, Extends M T → TotalOver 1 T → SatAll [[1]] T)) :=
  ⟨by unfold ClausesWF; decide, sat_sound 1 [[1]] (by unfold ClausesWF; decide)⟩

/-- Claim C2: Agreement.  For every formula whose literals are non-zero with
absolute value in `[1, n_vars]`, `sat_bruteforce` and `sat_backtracking`
return the same satisfiable verdict. -/
theorem sat_agree (n : Nat) (cs : List (List Int)) (hwf : ClausesWF n cs) :
    (sat_bruteforce n cs).1 = (sat_backtracking n cs).1 := by
  rw [sat_backtracking_fst]
  cases hdfs : (dfs cs n (n + 1) [] []).1 with
  | true =>
    have hsat := dfs_sound (n + 1) [] [] hdfs
    have hkeys := (dfs_keys (n + 1) [] []
      (fun p hp => absurd hp (List.not_mem_nil _))).2 hdfs
    obtain ⟨bits, hlen, hext, _⟩ := model_to_total hkeys
    rw [sat_bruteforce_fst_true_iff]
    exact ⟨bits, hlen, SatAll_mono hext hsat⟩
  | false =>
    have hcnt : unassignedCount n ([] : Assignment) < n + 1 := by
      rw [unassignedCount_nil]
      omega
    have hcomp := dfs_complete hwf (n + 1) [] [] hcnt hdfs
    by_cases hbf : (sat_bruteforce n cs).1 = true
    · obtain ⟨bits, hlen, hsat⟩ := (sat_bruteforce_fst_true_iff n cs).mp hbf
      exact absurd hsat (hcomp (bitsToA bits) (extends_nil _) (totalOver_bitsToA hlen))
    · simpa using hbf

theorem sat_agree_witness :
    ClausesWF 1 [[1]] ∧ (sat_bruteforce 1 [[1]]).1 = (sat_backtracking 1 [[1]]).1 :=
  ⟨by unfold ClausesWF; decide, sat_agree 1 [[1]] (by unfold ClausesWF; decide)⟩

/-- Claim C3: Completeness of the brute-force verdict.  For every formula
whose literals are non-zero with absolute value in `[1, n_vars]`,
`sat_bruteforce` reports satisfiable iff some total assignment of the
variables `1..n_vars` satisfies every clause, and reports `(false, {})` when
none exists. -/
theorem sat_bruteforce_complete (n : Nat) (cs : List (List Int)) (_hwf : ClausesWF n cs) :
    ((sat_bruteforce n cs).1 = true ↔
      ∃ bits, bits.length = n ∧ SatAll cs (bitsToA bits)) ∧
    ((¬ ∃ bits, bits.length = n ∧ SatAll cs (bitsToA bits)) →
      sat_bruteforce n cs = (false, [])) := by
  refine ⟨sat_bruteforce_fst_true_iff n cs, fun hno => ?_⟩
  apply sat_bruteforce_of_fst_false
  by_cases h : (sat_bruteforce n cs).1 = true
  · exact absurd ((sat_bruteforce_fst_true_iff n cs).mp h) hno
  · simpa using h

theorem sat_bruteforce_complete_witness :
    ClausesWF 1 [[1]] ∧
    (((sat_bruteforce 1 [[1]]).1 = true ↔
      ∃ bits, bits.length = 1 ∧ SatAll [[1]] (bitsToA bits)) ∧
    ((¬ ∃ bits, bits.length = 1 ∧ SatAll [[1]] (bitsToA bits)) →
      sat_bruteforce 1 [[1]] = (false, []))) :=
  ⟨by unfold ClausesWF; decide, sat_bruteforce_complete 1 [[1]] (by unfold ClausesWF; decide)⟩

/-- Claim C4 (counterexample): the claim that a `satisfiable = true` verdict
always carries a total model fails for `sat_backtracking`: on the well-formed
formula `n_vars = 2`, `clauses = [[1]]` it succeeds with the partial model
`{1: True}`, in which variable 2 is unassigned. -/
theorem model_totality_cex :
    ClausesWF 2 [[1]] ∧ (sat_backtracking 2 [[1]]).1 = true ∧
      Aget (sat_backtracking 2 [[1]]).2 2 = none :=
  ⟨by unfold ClausesWF; decide, by decide, by decide⟩

/-- Claim C4 (amended): for well-formed formulas, a successful
`sat_bruteforce` model has key set exactly `{1, ..., n_vars}`, while a
successful `sat_backtracking` model has key set contained in
`{1, ..., n_vars}` (it may be a proper partial assignment). -/
theorem model_totality_amended (n : Nat) (cs : List (List Int)) (_hwf : ClausesWF n cs) :
    (∀ M, sat_bruteforce n cs = (true, M) → M.map Prod.fst = List.range' 1 n) ∧
    (∀ M, sat_backtracking n cs = (true, M) → ∀ p ∈ M, 1 ≤ p.1 ∧ p.1 ≤ n) := by
  constructor
  · intro M h
    exact (sat_bruteforce_keys h).1
  · intro M h
    obtain ⟨hfst, hM⟩ := sat_backtracking_eq_true h
    have hkeys := (dfs_keys (n + 1) [] []
      (fun p hp => absurd hp (List.not_mem_nil _))).2 hfst
    rw [hM]
    exact hkeys

theorem model_totality_amended_witness :
    ClausesWF 2 [[1]] ∧
    ((∀ M, sat_bruteforce 2 [[1]] = (true, M) → M.map Prod.fst = List.range' 1 2) ∧
    (∀ M, sat_backtracking 2 [[1]] = (true, M) → ∀ p ∈ M, 1 ≤ p.1 ∧ p.1 ≤ 2)) :=
  ⟨by unfold ClausesWF; decide, model_totality_amended 2 [[1]] (by unfold ClausesWF; decide)⟩

/-- Claim C5: `clause_impossible` characterization.  For a clause of non-zero
literals, `clause_impossible clause A` holds iff no extension of `A` covering
the clause's variables satisfies the clause; equivalently, every literal's
variable is assigned in `A` and no literal evaluates true; and the empty
clause is impossible under every `A`. -/
theorem clause_impossible_spec (c : List Int) (A : Assignment)
    (hnz : ∀ lit ∈ c, lit ≠ 0) :
    (clause_impossible c A = true ↔
      ∀ T, Extends A T → (∀ lit ∈ c, (Aget T lit.natAbs).isSome = true) →
        clause_satisfied c T = false) ∧
    (clause_impossible c A = true ↔
      ∀ lit ∈ c, (Aget A lit.natAbs).isSome = true ∧ literal_true lit A = false) ∧
    clause_impossible [] A = true := by
  refine ⟨⟨fun h T hext _ => clause_impossible_ext h hext, fun hall => ?_⟩,
    clause_impossible_iff, rfl⟩
  by_cases h : clause_impossible c A = true
  · exact h
  · obtain ⟨T, hext, hcov, hsat⟩ := clause_possible_witness hnz (by simpa using h)
    have hTc := hall T hext hcov
    rw [hsat] at hTc
    exact Bool.noConfusion hTc

theorem clause_impossible_spec_witness :
    (∀ lit ∈ ([] : List Int), lit ≠ 0) ∧
    ((clause_impossible [] [] = true ↔
      ∀ T, Extends [] T → (∀ lit ∈ ([] : List Int), (Aget T lit.natAbs).isSome = true) →
        clause_satisfied [] T = false) ∧
    (clause_impossible ([] : List Int) [] = true ↔
      ∀ lit ∈ ([] : List Int), (Aget [] lit.natAbs).isSome = true ∧
        literal_true lit [] = false) ∧
    clause_impossible [] ([] : Assignment) = true) :=
  ⟨by decide, clause_impossible_spec [] [] (by decide)⟩

/-- Claim C6: Brute-force witness order.  `sat_bruteforce` enumerates total
assignments as a binary counter with variable 1 the slowest digit and
variable `n_vars` the fastest, `false` before `true`; a returned model is the
first satisfying assignment in that order; and on `n_vars = 2`,
`clauses = [[1,2],[-1,-2]]` it returns exactly `{1: False, 2: True}`. -/
theorem sat_bruteforce_order (n : Nat) (cs : List (List Int)) (M : Assignment)
    (h : sat_bruteforce n cs = (true, M)) :
    allBits n = (List.range (2 ^ n)).map (counterBits n) ∧
    (∃ k, k < 2 ^ n ∧ M = bitsToA (counterBits n k) ∧
      cs.all (fun c => clause_satisfied c (bitsToA (counterBits n k))) = true ∧
      ∀ j, j < k →
        cs.all (fun c => clause_satisfied c (bitsToA (counterBits n j))) = false) ∧
    sat_bruteforce 2 [[1, 2], [-1, -2]] = (true, [(1, false), (2, true)]) :=
  ⟨allBits_eq_counter n, sat_bruteforce_first h, by decide⟩

theorem sat_bruteforce_order_witness :
    sat_bruteforce 2 [[1, 2], [-1, -2]] = (true, [(1, false), (2, true)]) ∧
    (allBits 2 = (List.range (2 ^ 2)).map (counterBits 2) ∧
    (∃ k, k < 2 ^ 2 ∧ [(1, false), (2, true)] = bitsToA (counterBits 2 k) ∧
      ([[1, 2], [-1, -2]] : List (List Int)).all
        (fun c => clause_satisfied c (bitsToA (counterBits 2 k))) = true ∧
      ∀ j, j < k →
        ([[1, 2], [-1, -2]] : List (List Int)).all
          (fun c => clause_satisfied c (bitsToA (counterBits 2 j))) = false) ∧
    sat_bruteforce 2 [[1, 2], [-1, -2]] = (true, [(1, false), (2, true)])) :=
  ⟨by decide, sat_bruteforce_order 2 [[1, 2], [-1, -2]] [(1, false), (2, true)] (by decide)⟩

/-- Claim C7: Backtracking witness order.  `sat_backtracking` branches on the
lowest-indexed unassigned variable; when the true-branch succeeds its result
is the whole answer (true is tried before false); and on `n_vars = 2`,
`clauses = [[1,2],[-1,-2]]` it returns exactly `{1: True, 2: False}`. -/
theorem sat_backtracking_order (n : Nat) (A : Assignment) (v : Nat)
    (h1 : pick_unassigned n A = v) (h2 : v ≠ 0) :
    (1 ≤ v ∧ v ≤ n ∧ Aget A v = none ∧
      ∀ w, 1 ≤ w → w < v → (Aget A w).isSome = true) ∧
    (∀ cs fuel sm, tri_state cs A ≠ "yes" → tri_state cs A ≠ "no" →
      (dfs cs n fuel (Aset A v true) sm).1 = true →
      dfs cs n (fuel + 1) A sm = dfs cs n fuel (Aset A v true) sm) ∧
    sat_backtracking 2 [[1, 2], [-1, -2]] = (true, [(1, true), (2, false)]) := by
  refine ⟨pick_unassigned_spec h1 h2, ?_, by decide⟩
  intro cs fuel sm hy hn hsucc
  simp only [dfs]
  rw [h1, if_neg hy, if_neg hn, if_neg h2, if_pos hsucc]

theorem sat_backtracking_order_witness :
    (pick_unassigned 1 [] = 1 ∧ (1 : Nat) ≠ 0) ∧
    ((1 ≤ 1 ∧ 1 ≤ 1 ∧ Aget [] 1 = none ∧
      ∀ w, 1 ≤ w → w < 1 → (Aget [] w).isSome = true) ∧
    (∀ cs fuel sm, tri_state cs [] ≠ "yes" → tri_state cs [] ≠ "no" →
      (dfs cs 1 fuel (Aset [] 1 true) sm).1 = true →
      dfs cs 1 (fuel + 1) [] sm = dfs cs 1 fuel (Aset [] 1 true) sm) ∧
    sat_backtracking 2 [[1, 2], [-1, -2]] = (true, [(1, true), (2, false)])) :=
  ⟨⟨by decide, by decide⟩, sat_backtracking_order 1 [] 1 (by decide) (by decide)⟩

/-- Claim C8: Empty-clause forcing.  Any formula containing a clause with
zero literals is reported unsatisfiable, with empty model, by both
strategies. -/
theorem empty_clause_forcing (n : Nat) (cs : List (List Int)) (h : [] ∈ cs) :
    sat_bruteforce n cs = (false, []) ∧ sat_backtracking n cs = (false, []) := by
  constructor
  · have hf : (allBits n).find?
        (fun bits => cs.all (fun c => clause_satisfied c (bitsToA bits))) = none := by
      rw [List.find?_eq_none]
      intro bits _ hall
      have hempty := List.all_eq_true.mp hall [] h
      exact Bool.noConfusion hempty
    rw [sat_bruteforce]
    simp only [hf]
  · have hno := tri_state_of_mem_nil (A := ([] : Assignment)) h
    have hdfs : dfs cs n (n + 1) [] [] = (false, [], []) := by
      simp only [dfs]
      rw [if_neg (by rw [hno]; decide), if_pos hno]
    simp only [sat_backtracking, hdfs]
    rfl

theorem empty_clause_forcing_witness :
    ([] ∈ ([[]] : List (List Int))) ∧
    (sat_bruteforce 0 [[]] = (false, []) ∧ sat_backtracking 0 [[]] = (false, [])) :=
  ⟨by decide, empty_clause_forcing 0 [[]] (by decide)⟩

/-- Claim C9 (counterexample): `dfs` does not restore the shared partial
assignment on every exit path.  On the succeeding run for `n_vars = 1`,
`clauses = [[1]]`, starting from the empty assignment, `dfs` returns with the
assignment `{1: True}` still in place, different from its entry value `{}`. -/
theorem dfs_frame_cex :
    (dfs [[1]] 1 2 [] []).1 = true ∧ (dfs [[1]] 1 2 [] []).2.1 ≠ [] :=
  ⟨by decide, by decide⟩

/-- Claim C9 (amended): every invocation of `dfs` that fails (returns false)
leaves the shared partial assignment — and the captured `solved_model` —
exactly as they were on entry; on success the search stops and the
assignments made on the successful branch remain in place. -/
theorem dfs_frame_amended (cs : List (List Int)) (n fuel : Nat) (A sm : Assignment)
    (h1 : unassignedCount n A < fuel) (h2 : (dfs cs n fuel A sm).1 = false) :
    dfs cs n fuel A sm = (false, A, sm) :=
  dfs_fail_frame fuel A sm h1 h2

theorem dfs_frame_amended_witness :
    (unassignedCount 1 [] < 2 ∧ (dfs [[1], [-1]] 1 2 [] []).1 = false) ∧
    dfs [[1], [-1]] 1 2 [] [] = (false, [], []) :=
  ⟨⟨by decide, by decide⟩, dfs_frame_amended [[1], [-1]] 1 2 [] [] (by decide) (by decide)⟩

/-- Claim C10: for every `n_vars` and clause list, a successful
`sat_bruteforce` model is a total assignment: its key set is exactly
`{1, ..., n_vars}` (in fact its key list is exactly `1, ..., n_vars`). -/
theorem sat_bruteforce_total_model (n : Nat) (cs : List (List Int)) (M : Assignment)
    (h : sat_bruteforce n cs = (true, M)) :
    M.map Prod.fst = List.range' 1 n ∧
      ∀ v, (Aget M v).isSome = true ↔ (1 ≤ v ∧ v ≤ n) :=
  sat_bruteforce_keys h

theorem sat_bruteforce_total_model_witness :
    sat_bruteforce 1 [[1]] = (true, [(1, true)]) ∧
    ([(1, true)].map Prod.fst = List.range' 1 1 ∧
      ∀ v, (Aget [(1, true)] v).isSome = true ↔ (1 ≤ v ∧ v ≤ 1)) :=
  ⟨by decide, sat_bruteforce_total_model 1 [[1]] [(1, true)] (by decide)⟩
